import Mathlib

/-!
# Verification of the secure filesystem MCP server core

A shallow embedding of the three core subsystems of
`src/filesystem/index.ts`:

* the path-containment validator `validatePath`;
* the fuzzy patch engine `applyFileEdits` (with its helpers
  `normalizeLineEndings`, the exact-substring branch backed by JavaScript
  `String.prototype.replace`, and the whitespace-tolerant line-block
  matcher);
* the recursive search walk `searchFiles` with its `minimatch`-based
  exclude patterns.

JavaScript strings are modelled as `List Char` (for the patch engine) or
Lean `String` (for the path validator, whose operations are string
operations on paths).  Filesystem access (`fs.realpath`, `fs.readdir`) is
modelled by explicit oracles/trees passed as parameters; the external
`diff` library's `createTwoFilesPatch` is an opaque function parameter.
-/

namespace MCPRepo

/-! ## Patch engine: basic text model -/

/-- JavaScript string contents, modelled as a list of characters. -/
abbrev Content := List Char

/-- Coerce a Lean string literal to modelled content. -/
def strC (s : String) : Content := s.data

/-- `normalizeLineEndings` from the source: `text.replace(/\r\n/g, '\n')`,
a left-to-right non-overlapping global replacement of CRLF by LF. -/
def normalizeLineEndings : Content → Content
  | [] => []
  | '\r' :: '\n' :: rest => '\n' :: normalizeLineEndings rest
  | c :: rest => c :: normalizeLineEndings rest

/-- JavaScript `String.prototype.includes` : `pat` occurs as a contiguous
substring (the empty pattern always occurs). -/
def occurs (pat : Content) : Content → Bool
  | [] => pat.isEmpty
  | c :: rest => pat.isPrefixOf (c :: rest) || occurs pat rest

/-- Split a string at the first occurrence of `pat`: returns the part
before the match and the part after it, or `none` when `pat` does not
occur. -/
def splitFirst (pat : Content) : Content → Option (Content × Content)
  | [] => if pat.isEmpty then some ([], []) else none
  | c :: rest =>
    if pat.isPrefixOf (c :: rest) then some ([], (c :: rest).drop pat.length)
    else (splitFirst pat rest).map fun pq => (c :: pq.1, pq.2)

/-- The backquote character (used by the diff fence in the source). -/
def backquoteChar : Char := Char.ofNat 96

/-- The single-quote character. -/
def singleQuoteChar : Char := Char.ofNat 39

/-- ECMAScript `GetSubstitution` for a plain-string (non-regexp) search
with no capture groups, as performed by `String.prototype.replace(string,
string)`: in the replacement string, dollar-dollar stands for a literal
dollar, dollar-ampersand for the matched text, dollar-backquote for the
text before the match and dollar-quote for the text after it; any other
character is copied verbatim. -/
def getSubstitution (matched before after : Content) : Content → Content
  | [] => []
  | c :: rest =>
    if c = '$' then
      match rest with
      | [] => ['$']
      | c2 :: rest2 =>
        if c2 = '$' then '$' :: getSubstitution matched before after rest2
        else if c2 = '&' then matched ++ getSubstitution matched before after rest2
        else if c2 = backquoteChar then before ++ getSubstitution matched before after rest2
        else if c2 = singleQuoteChar then after ++ getSubstitution matched before after rest2
        else '$' :: c2 :: getSubstitution matched before after rest2
    else c :: getSubstitution matched before after rest

/-- JavaScript `s.replace(pat, repl)` with string arguments: replaces the
first occurrence of `pat` by `repl` after `GetSubstitution` processing of
`repl`; returns `s` unchanged when `pat` does not occur. -/
def jsReplace (s pat repl : Content) : Content :=
  match splitFirst pat s with
  | none => s
  | some (pre, post) => pre ++ getSubstitution pat pre post repl ++ post

/-- JavaScript `String.prototype.split` on a single-character separator:
always returns one more part than there are separators (so the result is
never empty). -/
def splitOnChar (sep : Char) : Content → List Content
  | [] => [[]]
  | c :: rest =>
    if c = sep then [] :: splitOnChar sep rest
    else
      match splitOnChar sep rest with
      | [] => [[c]]
      | l :: ls => (c :: l) :: ls

/-- `content.split('\n')` from the source. -/
def splitNl (s : Content) : List Content := splitOnChar '\n' s

/-- `lines.join('\n')` from the source. -/
def joinNl (ls : List Content) : Content := List.intercalate ['\n'] ls

/-- JavaScript whitespace (`\s` / `trim`), restricted to the ASCII range
used throughout this model. -/
def isJsSpace (c : Char) : Bool :=
  c = ' ' || c = '\t' || c = '\n' || c = '\r' || c = Char.ofNat 11 || c = Char.ofNat 12

/-- JavaScript `String.prototype.trimStart`. -/
def jsTrimStart (l : Content) : Content := l.dropWhile isJsSpace

/-- JavaScript `String.prototype.trim`. -/
def jsTrim (l : Content) : Content :=
  ((l.dropWhile isJsSpace).reverse.dropWhile isJsSpace).reverse

/-- The leading-whitespace run of a line, `line.match(/^\s*/)?.[0] || ''`
from the source. -/
def leadingWS (l : Content) : Content := l.takeWhile isJsSpace

/-! ## Patch engine: fuzzy line-block matching (`applyFileEdits`) -/

/-- Whether the window of `oldLines.length` content lines starting at `i`
matches `oldLines` line by line after trimming, as in the source's
`oldLines.every((oldLine, j) => oldLine.trim() === potentialMatch[j].trim())`
over `potentialMatch = contentLines.slice(i, i + oldLines.length)`. -/
def isMatchAt (oldLines contentLines : List Content) (i : Nat) : Bool :=
  let window := (contentLines.drop i).take oldLines.length
  window.length == oldLines.length &&
    (List.zip oldLines window).all fun p => jsTrim p.1 == jsTrim p.2

/-- The scan of the source's `for` loop: try indices `i, i+1, ...` for at
most `fuel` steps, returning the first matching window index. -/
def findMatchFrom (oldLines contentLines : List Content) : Nat → Nat → Option Nat
  | _, 0 => none
  | i, fuel + 1 =>
    if isMatchAt oldLines contentLines i then some i
    else findMatchFrom oldLines contentLines (i + 1) fuel

/-- Index of the first fuzzily matching window, scanning
`i = 0 .. contentLines.length - oldLines.length` as the source loop does
(the loop body never runs when `oldLines` is longer than
`contentLines`). -/
def fuzzyFindIdx (oldLines contentLines : List Content) : Option Nat :=
  if oldLines.length ≤ contentLines.length then
    findMatchFrom oldLines contentLines 0 (contentLines.length - oldLines.length + 1)
  else none

/-- The replacement lines built by the source once a window matched: the
first new line inherits the matched window's first line's original
indentation; a later new line whose own indentation and the corresponding
old line's indentation are both non-empty gets the original indentation
plus the (clamped at zero) indentation-width delta; other lines are kept
unmodified. -/
def buildNewLines (originalIndent : Content) (oldLines newLines : List Content) :
    List Content :=
  List.mapIdx (fun j line =>
    if j == 0 then originalIndent ++ jsTrimStart line
    else
      let oldIndent := leadingWS (oldLines.getD j [])
      let newIndent := leadingWS line
      if !oldIndent.isEmpty && !newIndent.isEmpty then
        originalIndent ++ List.replicate (newIndent.length - oldIndent.length) ' ' ++
          jsTrimStart line
      else line) newLines

/-- The fuzzy branch of the per-edit matching: split old text and content
into lines, find the first trimmed-equal window, splice in the
re-indented new lines, and rejoin; `none` when no window matches. -/
def fuzzyApply (cur old new : Content) : Option Content :=
  let oldLines := splitNl old
  let contentLines := splitNl cur
  match fuzzyFindIdx oldLines contentLines with
  | none => none
  | some i =>
    let originalIndent := leadingWS (contentLines.getD i [])
    let newLines := buildNewLines originalIndent oldLines (splitNl new)
    some (joinNl (contentLines.take i ++ newLines ++
      contentLines.drop (i + oldLines.length)))

/-- One `(oldText, newText)` edit request. -/
structure Edit where
  oldText : Content
  newText : Content
deriving DecidableEq, Repr

/-- One iteration of the source's edit loop: normalize the edit's line
endings, use JavaScript `replace` on the first exact substring occurrence
if there is one, otherwise fall back to the fuzzy line-block matcher;
`none` models the `Could not find exact match for edit` throw. -/
def applyEdit (cur : Content) (e : Edit) : Option Content :=
  let normalizedOld := normalizeLineEndings e.oldText
  let normalizedNew := normalizeLineEndings e.newText
  if occurs normalizedOld cur then some (jsReplace cur normalizedOld normalizedNew)
  else fuzzyApply cur normalizedOld normalizedNew

/-- The source's `for (const edit of edits)` loop over the in-memory
content: edits are applied strictly in order, each to the output of the
previous one; on the first edit that matches neither exactly nor fuzzily
the loop throws, carrying that edit's (raw) `oldText`. -/
def applyEditsLoop (content : Content) : List Edit → Except Content Content
  | [] => .ok content
  | e :: rest =>
    match applyEdit content e with
    | some c => applyEditsLoop c rest
    | none => .error e.oldText

/-- A run of `n` backquote characters. -/
def fenceRun (n : Nat) : Content := List.replicate n backquoteChar

/-- The source's `while (diff.includes(backticks.repeat(n))) n++` loop,
with enough fuel to reach the first run length absent from `diff`. -/
def numBackticksFrom (diff : Content) : Nat → Nat → Nat
  | 0, n => n
  | fuel + 1, n => if occurs (fenceRun n) diff then numBackticksFrom diff fuel (n + 1) else n

/-- Fence length for the formatted diff: the smallest `n ≥ 3` such that
`diff` contains no run of `n` backquotes. -/
def numBackticks (diff : Content) : Nat := numBackticksFrom diff (diff.length + 1) 3

/-- The fenced diff returned by `applyFileEdits`. -/
def formatDiff (diff : Content) : Content :=
  let n := numBackticks diff
  fenceRun n ++ strC "diff" ++ ['\n'] ++ diff ++ fenceRun n ++ ['\n', '\n']

/-- `applyFileEdits(filePath, edits, dryRun)` as a function of the current
on-disk content: returns the new on-disk content together with either the
formatted diff or the `oldText` of the first unmatched edit.  `diffFn`
models the external `diff` library's `createTwoFilesPatch`, which is
applied to the normalized original and final contents.  The file is
written (with the fully edited in-memory buffer) only after every edit
matched and only when `dryRun` is false; a thrown `EditNotFound` leaves
the on-disk content untouched. -/
def applyFileEdits (diffFn : Content → Content → Content) (fileContent : Content)
    (edits : List Edit) (dryRun : Bool) : Content × Except Content Content :=
  let content := normalizeLineEndings fileContent
  match applyEditsLoop content edits with
  | .error o => (fileContent, .error o)
  | .ok modifiedContent =>
    let formattedDiff := formatDiff (diffFn content modifiedContent)
    (if dryRun then fileContent else modifiedContent, .ok formattedDiff)

/-! ## PathGuard: the path-containment validator (`validatePath`)

Paths are POSIX-style Lean strings.  `fs.realpath` is an oracle
`String → Option String` (`none` models the rejection of the promise, as
for a target that does not exist).  The `try`/`catch` structure of the
source is modelled faithfully: any error raised inside the outer `try`
(including the source's own `Access denied - symlink target outside
allowed directories` throw) transfers control to the `catch` block, and
any error raised inside the inner `try` (including the `Access denied -
parent directory outside allowed directories` throw) is converted by the
inner `catch` into the `Parent directory does not exist` error. -/

/-- Node `path.posix` segment resolution (`normalizeString`): drop empty
and `.` segments, resolve `..` against the accumulated segments; when
`allowAbove` is true (relative paths) leading `..` segments are kept,
otherwise (absolute paths) they are dropped at the root. -/
def resolveDots (allowAbove : Bool) (acc : List String) : List String → List String
  | [] => acc.reverse
  | s :: rest =>
    if s = "" || s = "." then resolveDots allowAbove acc rest
    else if s = ".." then
      match acc with
      | top :: tl =>
        if top = ".." then resolveDots allowAbove (".." :: acc) rest
        else resolveDots allowAbove tl rest
      | [] =>
        if allowAbove then resolveDots allowAbove [".."] rest
        else resolveDots allowAbove [] rest
    else resolveDots allowAbove (s :: acc) rest

/-- Split a path string on `/` (JavaScript `p.split('/')`). -/
def splitSlash (s : String) : List String := (splitOnChar '/' s.data).map String.mk

/-- JavaScript `s.startsWith(pre)` (via the character lists, so that the
kernel can evaluate it). -/
def strStartsWith (s pre : String) : Bool := pre.data.isPrefixOf s.data

/-- JavaScript `s.endsWith(suf)`. -/
def strEndsWith (s suf : String) : Bool := suf.data.isSuffixOf s.data

/-- JavaScript `s.toLowerCase()`, restricted to the ASCII case mapping. -/
def strToLower (s : String) : String := String.mk (s.data.map Char.toLower)

/-- JavaScript `s.slice(n)` for a non-negative character index. -/
def strDrop (s : String) (n : Nat) : String := String.mk (s.data.drop n)

/-- JavaScript `s.includes(c)` for a single character. -/
def strContains (s : String) (c : Char) : Bool := s.data.contains c

/-- Join path segments with `/` (JavaScript `parts.join('/')`). -/
def joinSlash (parts : List String) : String :=
  String.mk (List.intercalate ['/'] (parts.map String.data))

/-- Node `path.posix.normalize`. -/
def posixNormalize (p : String) : String :=
  if p = "" then "." else
  let abs := strStartsWith p "/"
  let trail := strEndsWith p "/"
  let joined := joinSlash (resolveDots (!abs) [] (splitSlash p))
  if abs then
    if joined = "" then "/"
    else if trail then "/" ++ joined ++ "/" else "/" ++ joined
  else
    if joined = "" then (if trail then "./" else ".")
    else if trail then joined ++ "/" else joined

/-- Node `path.resolve` applied to a single absolute path: segment
resolution with no trailing separator. -/
def pathResolveAbs (p : String) : String :=
  let joined := joinSlash (resolveDots false [] (splitSlash p))
  if joined = "" then "/" else "/" ++ joined

/-- `path.resolve(cwd, p)` (equally `path.resolve(p)` when `p` is
absolute), for an absolute `cwd` as `process.cwd()` always is. -/
def pathResolve (cwd p : String) : String :=
  if strStartsWith p "/" then pathResolveAbs p else pathResolveAbs (cwd ++ "/" ++ p)

/-- Node `path.posix.dirname`: trailing separators are ignored, the last
path segment is removed; a slash-free path has dirname `.` and a
root-level path has dirname `/`. -/
def pathDirname (p : String) : String :=
  let cs := p.data
  if cs.isEmpty then "." else
  let hasRoot := cs.headD ' ' = '/'
  let rev := (cs.drop 1).reverse
  let rev2 := rev.dropWhile (fun c => c = '/')
  let rev3 := rev2.dropWhile (fun c => c ≠ '/')
  match rev3 with
  | [] => if hasRoot then "/" else "."
  | _ :: preRev =>
    if hasRoot && preRev.isEmpty then "//"
    else String.mk (cs.headD '/' :: preRev.reverse)

/-- `normalizePath` from the source: `path.normalize(p).toLowerCase()`. -/
def normalizePath (p : String) : String := strToLower (posixNormalize p)

/-- `expandHome` from the source: expand a leading `~/` (or a bare `~`)
to the home directory via `path.join(os.homedir(), filepath.slice(1))`. -/
def expandHome (homedir : String) (filepath : String) : String :=
  if strStartsWith filepath "~/" || filepath = "~" then
    (if strDrop filepath 1 = "" then posixNormalize homedir
     else posixNormalize (homedir ++ "/" ++ strDrop filepath 1))
  else filepath

/-- Outcome of `validatePath`: a returned validated path, or one of the
two error kinds that can actually escape the function (the `Access
denied` errors thrown inside the `try` blocks that are swallowed by their
own `catch` blocks are modelled by the control transfer, not by a
result). -/
inductive ValidateResult where
  | ok (validatedPath : String)
  | accessDenied
  | parentMissing (parentDir : String)
deriving DecidableEq, Repr

/-- The containment test the source uses everywhere:
`allowedDirectories.some(dir => normalized.startsWith(dir))` — a raw
string-prefix comparison of the lower-cased normalized path against the
(already normalized, lower-cased) allowed directories. -/
def someDirPrefix (allowedDirectories : List String) (normalized : String) : Bool :=
  allowedDirectories.any fun dir => strStartsWith normalized dir

/-- The `catch` block of `validatePath`: resolve the parent directory's
real path and re-check containment; both a missing parent and (because
the inner `catch` swallows the `Access denied - parent directory outside
allowed directories` throw) a parent whose real path is outside the
allowed directories surface as `parentMissing`. -/
def validateParent (fsReal : String → Option String)
    (allowedDirectories : List String) (absolute : String) : ValidateResult :=
  let parentDir := pathDirname absolute
  match fsReal parentDir with
  | some realParentPath =>
    if someDirPrefix allowedDirectories (normalizePath realParentPath) then .ok absolute
    else .parentMissing parentDir
  | none => .parentMissing parentDir

/-- `validatePath(requestedPath)` from the source.  `fsReal` models
`fs.realpath`; `allowedDirectories` is the startup list, already stored
in normalized lower-case form.  When the real path resolves but lies
outside the allowed directories, the thrown error is caught by the
function's own `catch` block, so control falls through to the
parent-directory fallback `validateParent`. -/
def validatePath (fsReal : String → Option String) (homedir cwd : String)
    (allowedDirectories : List String) (requestedPath : String) : ValidateResult :=
  let expandedPath := expandHome homedir requestedPath
  let absolute := pathResolve cwd expandedPath
  let normalizedRequested := normalizePath absolute
  if !someDirPrefix allowedDirectories normalizedRequested then .accessDenied
  else
    match fsReal absolute with
    | some realPath =>
      if someDirPrefix allowedDirectories (normalizePath realPath) then .ok realPath
      else validateParent fsReal allowedDirectories absolute
    | none => validateParent fsReal allowedDirectories absolute

/-- Containment of `p` in the directory `root` on full path segments —
the notion of "inside a root" used by the specification (`p` is the root
itself or a descendant of it). -/
def isPathWithin (root p : String) : Bool :=
  p = root || strStartsWith p (root ++ "/")

/-! ## SearchEngine (`searchFiles`)

The walked directory tree is modelled explicitly; paths are segment
lists (the search only ever joins the root with entry names and takes
paths relative to the root, so segments are the faithful granularity:
`path.relative(rootPath, fullPath)` is exactly the descent segments).
Per-entry `validatePath` failures — skipped by the source's
`try`/`catch` — are modelled by a boolean `validate` parameter. -/

/-- A directory entry as discovered by `fs.readdir(..., withFileTypes)`. -/
inductive FSTree where
  | file (name : String)
  | dir (name : String) (children : List FSTree)
deriving Repr

/-- The entry's name. -/
def FSTree.name : FSTree → String
  | .file n => n
  | .dir n _ => n

/-- Modelled from the `minimatch` library's `matchOne`, specialised to
slash-separated patterns whose segments are either literal names or the
globstar, matched with `dot: true` against paths whose segments are
entry names (never `.` or `..`): a literal segment must equal the
corresponding path segment; a non-final globstar swallows any number of
segments but must leave at least one; a final globstar matches any
non-empty rest of the path; a pattern exhausted before the path fails
unless only a trailing empty segment remains. -/
def globSegMatch : List String → List String → Bool
  | [], fs => fs.isEmpty || fs == [""]
  | p :: ps, fs =>
    if p = "**" then
      if ps.isEmpty then !fs.isEmpty
      else (List.range fs.length).any fun k => globSegMatch ps (fs.drop k)
    else
      match fs with
      | [] => false
      | f :: fs2 => p == f && globSegMatch ps fs2

/-- `minimatch(relativePath, globPattern, dot: true)` on a relative path
given by its segments. -/
def miniMatch (relSegments : List String) (globPattern : String) : Bool :=
  globSegMatch (splitSlash globPattern) relSegments

/-- The source's per-pattern expansion:
`pattern.includes('*') ? pattern : '**/' ++ pattern ++ '/**'`. -/
def expandExcludePattern (pat : String) : String :=
  if strContains pat '*' then pat else "**/" ++ pat ++ "/**"

/-- `excludePatterns.some(pattern => minimatch(relativePath, globPattern,
dot: true))` from the source. -/
def shouldExclude (excludePatterns : List String) (relSegments : List String) : Bool :=
  excludePatterns.any fun pat => miniMatch relSegments (expandExcludePattern pat)

/-- `entry.name.toLowerCase().includes(pattern.toLowerCase())`. -/
def nameMatches (entryName pattern : String) : Bool :=
  occurs (strC (strToLower pattern)) (strC (strToLower entryName))

/-- The recursive `search` closure of `searchFiles`, walking a list of
directory entries: each entry is validated (a failure skips it), tested
against the exclude patterns on its path relative to the search root
(`continue` skips both the result and the descent), matched
case-insensitively by name, and recursed into when it is a directory. -/
def searchList (validate : List String → Bool) (rootLen : Nat) (pattern : String)
    (excludePatterns : List String) : List String → List FSTree → List (List String)
  | _, [] => []
  | currentPath, t :: rest =>
    let fullPath := currentPath ++ [t.name]
    (if validate fullPath then
      if shouldExclude excludePatterns (fullPath.drop rootLen) then []
      else
        (if nameMatches t.name pattern then [fullPath] else []) ++
        (match t with
         | .file _ => []
         | .dir _ children =>
           searchList validate rootLen pattern excludePatterns fullPath children)
     else []) ++
    searchList validate rootLen pattern excludePatterns currentPath rest
termination_by _ l => sizeOf l
decreasing_by all_goals (simp_wf <;> simp_arith)

/-- `searchFiles(rootPath, pattern, excludePatterns)`: walk the entries
of the validated root directory. -/
def searchFiles (validate : List String → Bool) (rootPath : List String)
    (pattern : String) (excludePatterns : List String) (rootEntries : List FSTree) :
    List (List String) :=
  searchList validate rootPath.length pattern excludePatterns rootPath rootEntries

/-! ## Claims about PathGuard -/

/-- Claim C1.  The containment check of `validatePath` is
`normalizedRequested.startsWith(dir)` — a raw string-prefix comparison,
not full-segment containment.  With the single allowed root `/allowed`
and a filesystem with no symlinks (`realpath` is the identity), the
sibling path `/allowed-evil/x`, which is outside the root on full path
segments, is admitted rather than rejected with `AccessDenied`: the code
contradicts the intended guarantee. -/
theorem validatePath_admits_sibling_of_root :
    isPathWithin "/allowed" "/allowed-evil/x" = false ∧
    validatePath (fun p => some p) "/home/user" "/" ["/allowed"] "/allowed-evil/x"
      = .ok "/allowed-evil/x" := by
  constructor <;> decide

/-- Claim C2.  A symlink at `/allowed/link` (literally inside the root)
whose real path `/outside/secret` is outside every allowed root is not
rejected: the source's `Access denied - symlink target outside allowed
directories` throw is caught by `validatePath`'s own `catch` block,
control falls through to the parent-directory fallback, the parent
`/allowed` is contained, and the unresolved symlink path is returned as
validated — the code contradicts the intended guarantee. -/
theorem validatePath_admits_escaping_symlink :
    ((fun p => if p = "/allowed/link" then some "/outside/secret"
               else if p = "/allowed" then some "/allowed"
               else some p) : String → Option String) "/allowed/link"
        = some "/outside/secret" ∧
    someDirPrefix ["/allowed"] (normalizePath "/outside/secret") = false ∧
    validatePath
      (fun p => if p = "/allowed/link" then some "/outside/secret"
                else if p = "/allowed" then some "/allowed"
                else some p)
      "/home/user" "/" ["/allowed"] "/allowed/link"
      = .ok "/allowed/link" := by
  refine ⟨by decide, by decide, by decide⟩

/-- Claim C4.  For the non-existent path `/allowed/sub/newfile` whose
parent `/allowed/sub` exists but resolves (as a symlink) to
`/outside/dir`, outside every allowed root, the source's `Access denied -
parent directory outside allowed directories` throw is swallowed by the
inner `catch`, and `validatePath` reports `parentMissing` — the
`ParentMissing` error is raised although the parent directory exists, so
the code does not distinguish the two failure causes as claimed. -/
theorem validatePath_masks_outside_parent_as_parentMissing :
    ((fun p => if p = "/allowed/sub" then some "/outside/dir" else none) :
        String → Option String) "/allowed/sub/newfile" = none ∧
    ((fun p => if p = "/allowed/sub" then some "/outside/dir" else none) :
        String → Option String) (pathDirname "/allowed/sub/newfile")
      = some "/outside/dir" ∧
    someDirPrefix ["/allowed"] (normalizePath "/outside/dir") = false ∧
    validatePath (fun p => if p = "/allowed/sub" then some "/outside/dir" else none)
      "/home/user" "/" ["/allowed"] "/allowed/sub/newfile"
      = .parentMissing "/allowed/sub" := by
  refine ⟨by decide, by decide, by decide, by decide⟩

/-- Claim C3, counterexample.  The claim quantifies over every
non-existent path whose parent's real path is contained in an allowed
root; but when the requested path's own literal location fails the
initial containment check, `validatePath` stops with `AccessDenied`
before ever looking at the parent.  Witness: the parent `/elsewhere` is a
symlink to the root `/allowed`, yet `validate("/elsewhere/newfile")`
fails instead of returning the path. -/
theorem validatePath_nonexistent_counterexample :
    ((fun p => if p = "/elsewhere" then some "/allowed" else none) :
        String → Option String) "/elsewhere/newfile" = none ∧
    ((fun p => if p = "/elsewhere" then some "/allowed" else none) :
        String → Option String) (pathDirname "/elsewhere/newfile")
      = some "/allowed" ∧
    isPathWithin "/allowed" "/allowed" = true ∧
    validatePath (fun p => if p = "/elsewhere" then some "/allowed" else none)
      "/home/user" "/" ["/allowed"] "/elsewhere/newfile"
      = .accessDenied := by
  refine ⟨by decide, by decide, by decide, by decide⟩

/-- Claim C3, as amended.  For a non-existent path whose normalized
absolute form also passes the literal containment check against the
allowed directories, and whose parent's real path is contained, validate
succeeds and returns the requested absolute path itself — unresolved, not
a realpath of it (the filesystem oracle cannot even resolve it). -/
theorem validatePath_nonexistent_returns_unresolved
    (fsReal : String → Option String) (homedir cwd : String)
    (roots : List String) (P rp : String)
    (habs : pathResolve cwd (expandHome homedir P) = P)
    (hlit : someDirPrefix roots (normalizePath P) = true)
    (hnoexist : fsReal P = none)
    (hparent : fsReal (pathDirname P) = some rp)
    (hcontained : someDirPrefix roots (normalizePath rp) = true) :
    validatePath fsReal homedir cwd roots P = .ok P := by
  simp [validatePath, validateParent, habs, hlit, hnoexist, hparent, hcontained]

/-- Witness for the amended claim C3: creating `/allowed/new.txt` under
the existing root directory `/allowed`. -/
theorem validatePath_nonexistent_returns_unresolved_witness :
    validatePath (fun p => if p = "/allowed" then some "/allowed" else none)
      "/home/user" "/" ["/allowed"] "/allowed/new.txt" = .ok "/allowed/new.txt" :=
  validatePath_nonexistent_returns_unresolved
    (fun p => if p = "/allowed" then some "/allowed" else none)
    "/home/user" "/" ["/allowed"] "/allowed/new.txt" "/allowed"
    (by decide) (by decide) (by decide) (by decide) (by decide)

/-! ## Claims about the patch engine: exact-substring matching -/

theorem splitFirst_eq_append (pat : Content) :
    ∀ s pre post : Content, splitFirst pat s = some (pre, post) → s = pre ++ pat ++ post := by
  intro s
  induction s with
  | nil =>
    intro pre post h
    simp only [splitFirst] at h
    split at h
    · next hp =>
      obtain ⟨h1, h2⟩ := Prod.mk.injEq .. ▸ Option.some.inj h
      subst h1; subst h2
      simp [List.isEmpty_iff.mp hp]
    · exact absurd h (by simp)
  | cons c rest ih =>
    intro pre post h
    simp only [splitFirst] at h
    split at h
    · next hp =>
      obtain ⟨h1, h2⟩ := Prod.mk.injEq .. ▸ Option.some.inj h
      obtain ⟨t, ht⟩ := List.isPrefixOf_iff_prefix.mp hp
      subst h1
      have : post = t := by rw [← h2, ← ht, List.drop_left]
      subst this
      simp [← ht]
    · next hp =>
      cases hr : splitFirst pat rest with
      | none => rw [hr] at h; exact absurd h (by simp)
      | some pq =>
        rw [hr] at h
        obtain ⟨h1, h2⟩ := Prod.mk.injEq .. ▸ Option.some.inj h
        subst h1; subst h2
        simpa using ih pq.1 pq.2 (by simp [hr])

theorem occurs_splitFirst_isSome (pat : Content) :
    ∀ s : Content, occurs pat s = true → (splitFirst pat s).isSome := by
  intro s
  induction s with
  | nil =>
    intro h
    simp only [occurs] at h
    simp [splitFirst, h]
  | cons c rest ih =>
    intro h
    simp only [splitFirst]
    split
    · simp
    · next hp =>
      simp only [occurs, Bool.or_eq_true] at h
      rcases h with h | h
      · exact absurd h hp
      · have := ih h
        cases hr : splitFirst pat rest with
        | none => rw [hr] at this; exact absurd this (by simp)
        | some pq => simp [hr]

theorem splitFirst_minimal (pat : Content) :
    ∀ s pre post : Content, splitFirst pat s = some (pre, post) →
      ∀ pre' post' : Content, s = pre' ++ pat ++ post' → pre.length ≤ pre'.length := by
  intro s
  induction s with
  | nil =>
    intro pre post h pre' post' _
    simp only [splitFirst] at h
    split at h
    · obtain ⟨h1, _⟩ := Prod.mk.injEq .. ▸ Option.some.inj h
      subst h1; simp
    · exact absurd h (by simp)
  | cons c rest ih =>
    intro pre post h pre' post' hs
    simp only [splitFirst] at h
    split at h
    · obtain ⟨h1, _⟩ := Prod.mk.injEq .. ▸ Option.some.inj h
      subst h1; simp
    · next hp =>
      cases hr : splitFirst pat rest with
      | none => rw [hr] at h; exact absurd h (by simp)
      | some pq =>
        rw [hr] at h
        obtain ⟨h1, h2⟩ := Prod.mk.injEq .. ▸ Option.some.inj h
        subst h1
        cases pre' with
        | nil =>
          exfalso
          apply hp
          apply List.isPrefixOf_iff_prefix.mpr
          exact ⟨post', by simpa using hs.symm⟩
        | cons c' pre'' =>
          have hcons := hs
          simp only [List.cons_append, List.cons.injEq] at hcons
          have := ih pq.1 pq.2 (by simp [hr]) pre'' post' hcons.2
          simpa using Nat.succ_le_succ this

theorem getSubstitution_no_dollar (matched before after : Content) :
    ∀ repl : Content, '$' ∉ repl → getSubstitution matched before after repl = repl := by
  intro repl
  induction repl with
  | nil => intro _; rfl
  | cons c rest ih =>
    intro h
    have hc : ¬(c = '$') := fun hc => h (hc ▸ List.mem_cons_self c rest)
    have hrest : '$' ∉ rest := fun hr => h (List.mem_cons_of_mem c hr)
    cases rest with
    | nil => rw [getSubstitution.eq_2, if_neg hc, getSubstitution.eq_1]
    | cons c2 rest2 => rw [getSubstitution.eq_3, if_neg hc, ih hrest]

/-- Claim C5, counterexample.  The exact-substring branch replaces via
JavaScript `String.prototype.replace`, whose replacement string undergoes
dollar-pattern substitution; with `newText` equal to a dollar-ampersand
pattern followed by `x`, the inserted text is the matched old text plus
`x`, not `newText` itself, refuting the claim that the replacement
inserts `newText` itself. -/
theorem applyEdit_dollar_counterexample :
    occurs (strC "b") (strC "abc") = true ∧
    applyEdit (strC "abc") ⟨strC "b", strC "$&x"⟩ = some (strC "abxc") ∧
    strC "abxc" ≠ strC "a" ++ strC "$&x" ++ strC "c" := by
  refine ⟨by decide, by decide, by decide⟩

/-- Claim C5, as amended.  Edits are processed strictly in order, each on
the output of the previous one; and for an edit whose line-ending
normalized `oldText` occurs verbatim in the current content and whose
normalized `newText` contains no dollar character (so that JavaScript
replacement substitution is the identity), exactly the first occurrence
is replaced: the content splits as `pre ++ oldText ++ post` with `pre`
shortest possible, and the result is `pre ++ newText ++ post`. -/
theorem applyEdit_exact_replaces_first_occurrence :
    (∀ (content : Content) (e : Edit) (rest : List Edit) (c : Content),
        applyEdit content e = some c →
        applyEditsLoop content (e :: rest) = applyEditsLoop c rest) ∧
    (∀ (cur : Content) (e : Edit),
        occurs (normalizeLineEndings e.oldText) cur = true →
        '$' ∉ normalizeLineEndings e.newText →
        ∃ pre post : Content,
          cur = pre ++ normalizeLineEndings e.oldText ++ post ∧
          applyEdit cur e = some (pre ++ normalizeLineEndings e.newText ++ post) ∧
          ∀ pre' post' : Content,
            cur = pre' ++ normalizeLineEndings e.oldText ++ post' →
            pre.length ≤ pre'.length) := by
  constructor
  · intro content e rest c h
    simp [applyEditsLoop, h]
  · intro cur e hocc hd
    have hsome := occurs_splitFirst_isSome _ _ hocc
    cases hsp : splitFirst (normalizeLineEndings e.oldText) cur with
    | none => rw [hsp] at hsome; exact absurd hsome (by simp)
    | some pq =>
      refine ⟨pq.1, pq.2, splitFirst_eq_append _ _ pq.1 pq.2 (by rw [hsp]), ?_, ?_⟩
      · simp only [applyEdit, hocc, if_pos, jsReplace, hsp]
        rw [getSubstitution_no_dollar _ _ _ _ hd]
      · exact splitFirst_minimal _ _ pq.1 pq.2 (by rw [hsp])

/-- Witness for the amended claim C5: replacing `"l"` by `"L"` in
`"hello"` rewrites exactly the first of the two occurrences. -/
theorem applyEdit_exact_replaces_first_occurrence_witness :
    (applyEditsLoop (strC "hello") (⟨strC "l", strC "L"⟩ :: []) =
      applyEditsLoop (strC "heLlo") []) ∧
    ∃ pre post : Content,
      strC "hello" = pre ++ normalizeLineEndings (strC "l") ++ post ∧
      applyEdit (strC "hello") ⟨strC "l", strC "L"⟩ =
        some (pre ++ normalizeLineEndings (strC "L") ++ post) ∧
      ∀ pre' post' : Content,
        strC "hello" = pre' ++ normalizeLineEndings (strC "l") ++ post' →
        pre.length ≤ pre'.length :=
  ⟨applyEdit_exact_replaces_first_occurrence.1 (strC "hello") ⟨strC "l", strC "L"⟩ []
      (strC "heLlo") (by decide),
   applyEdit_exact_replaces_first_occurrence.2 (strC "hello") ⟨strC "l", strC "L"⟩
      (by decide) (by decide)⟩

/-! ## Claims about the patch engine: fuzzy matching -/

theorem findMatchFrom_some (oldLines contentLines : List Content) :
    ∀ fuel i r : Nat, findMatchFrom oldLines contentLines i fuel = some r →
      isMatchAt oldLines contentLines r = true ∧ i ≤ r ∧
      ∀ j, i ≤ j → j < r → isMatchAt oldLines contentLines j = false := by
  intro fuel
  induction fuel with
  | zero => intro i r h; exact absurd h (by simp [findMatchFrom])
  | succ fuel ih =>
    intro i r h
    cases hm : isMatchAt oldLines contentLines i with
    | true =>
      have hr : i = r := by simpa [findMatchFrom, hm] using h
      subst hr
      exact ⟨hm, Nat.le_refl i,
        fun j h1 h2 => absurd (Nat.lt_of_le_of_lt h1 h2) (Nat.lt_irrefl i)⟩
    | false =>
      have h' : findMatchFrom oldLines contentLines (i + 1) fuel = some r := by
        simpa [findMatchFrom, hm] using h
      obtain ⟨h1, h2, h3⟩ := ih (i + 1) r h'
      refine ⟨h1, Nat.le_trans (Nat.le_succ i) h2, fun j hj1 hj2 => ?_⟩
      rcases Nat.eq_or_lt_of_le hj1 with he | hl
      · rw [← he]; exact hm
      · exact h3 j hl hj2

theorem fuzzyFindIdx_spec (oldLines contentLines : List Content) (i : Nat) :
    fuzzyFindIdx oldLines contentLines = some i →
    isMatchAt oldLines contentLines i = true ∧
    ∀ j, j < i → isMatchAt oldLines contentLines j = false := by
  intro h
  simp only [fuzzyFindIdx] at h
  split at h
  · obtain ⟨h1, _, h3⟩ := findMatchFrom_some _ _ _ 0 i h
    exact ⟨h1, fun j hj => h3 j (Nat.zero_le j) hj⟩
  · exact absurd h (by simp)

theorem splitOnChar_ne_nil (sep : Char) : ∀ s : Content, splitOnChar sep s ≠ [] := by
  intro s
  cases s with
  | nil => simp [splitOnChar]
  | cons c rest =>
    simp only [splitOnChar]
    split
    · simp
    · split <;> simp

/-- Claim C6.  When an edit's `oldText` has no exact substring occurrence
in the current content, the fuzzy matcher acts at the lowest window index
whose lines all trim-equal the old lines; the applied result splices the
reconstructed lines over the matched window, and the first replacement
line is the matched window's first line's original leading whitespace
followed by the new text's first line with its own leading whitespace
stripped.  The spec's indentation example holds: content `"  return x;"`
with edit old `"return x;"`, new `"return y;"` gives `"  return y;"`. -/
theorem applyEdit_fuzzy_first_window :
    (∀ (cur : Content) (e : Edit) (i : Nat)
        (oldLines contentLines newLines0 : List Content),
        oldLines = splitNl (normalizeLineEndings e.oldText) →
        contentLines = splitNl cur →
        newLines0 = splitNl (normalizeLineEndings e.newText) →
        occurs (normalizeLineEndings e.oldText) cur = false →
        fuzzyFindIdx oldLines contentLines = some i →
        isMatchAt oldLines contentLines i = true ∧
        (∀ j, j < i → isMatchAt oldLines contentLines j = false) ∧
        applyEdit cur e = some (joinNl (contentLines.take i ++
          buildNewLines (leadingWS (contentLines.getD i [])) oldLines newLines0 ++
          contentLines.drop (i + oldLines.length))) ∧
        (buildNewLines (leadingWS (contentLines.getD i [])) oldLines newLines0).headD []
          = leadingWS (contentLines.getD i []) ++ jsTrimStart (newLines0.headD [])) ∧
    applyEdit (strC "  return x;") ⟨strC "return x;", strC "return y;"⟩
      = some (strC "  return y;") := by
  constructor
  · intro cur e i oldLines contentLines newLines0 hol hcl hnl hocc hfind
    subst hol; subst hcl; subst hnl
    obtain ⟨h1, h2⟩ := fuzzyFindIdx_spec _ _ _ hfind
    refine ⟨h1, h2, ?_, ?_⟩
    · simp only [applyEdit, hocc, Bool.false_eq_true, if_false, fuzzyApply, hfind]
    · obtain ⟨n0, ns, hsplit⟩ :=
        List.exists_cons_of_ne_nil (splitOnChar_ne_nil '\n' (normalizeLineEndings e.newText))
      have hsplit' : splitNl (normalizeLineEndings e.newText) = n0 :: ns := hsplit
      rw [hsplit']
      simp [buildNewLines, List.mapIdx_cons]
  · decide

/-- Witness for claim C6: an edit whose old text differs from the content
line only in leading and trailing whitespace fails the exact branch and
is applied fuzzily at window index 0, preserving the content line's
two-space indentation. -/
theorem applyEdit_fuzzy_first_window_witness :
    isMatchAt [strC " return x; "] [strC "  return x;"] 0 = true ∧
    (∀ j, j < 0 → isMatchAt [strC " return x; "] [strC "  return x;"] j = false) ∧
    applyEdit (strC "  return x;") ⟨strC " return x; ", strC "return y;"⟩
      = some (joinNl (([strC "  return x;"] : List Content).take 0 ++
        buildNewLines (leadingWS (([strC "  return x;"] : List Content).getD 0 []))
          [strC " return x; "] [strC "return y;"] ++
        ([strC "  return x;"] : List Content).drop (0 + ([strC " return x; "] : List Content).length))) ∧
    (buildNewLines (leadingWS (([strC "  return x;"] : List Content).getD 0 []))
        [strC " return x; "] [strC "return y;"]).headD []
      = leadingWS (([strC "  return x;"] : List Content).getD 0 []) ++
        jsTrimStart (([strC "return y;"] : List Content).headD []) :=
  applyEdit_fuzzy_first_window.1 (strC "  return x;")
    ⟨strC " return x; ", strC "return y;"⟩ 0
    [strC " return x; "] [strC "  return x;"] [strC "return y;"]
    (by decide) (by decide) (by decide) (by decide) (by decide)

/-! ## Claims about the patch engine: failure and persistence -/

theorem applyEditsLoop_error_iff (edits : List Edit) :
    ∀ content o : Content,
      applyEditsLoop content edits = .error o ↔
      ∃ (i : Nat) (h : i < edits.length) (c : Content),
        applyEditsLoop content (edits.take i) = .ok c ∧
        applyEdit c (edits.get ⟨i, h⟩) = none ∧
        o = (edits.get ⟨i, h⟩).oldText := by
  induction edits with
  | nil =>
    intro content o
    constructor
    · intro h; exact absurd h (by simp [applyEditsLoop])
    · rintro ⟨i, hi, -⟩; exact absurd hi (by simp)
  | cons e rest ih =>
    intro content o
    constructor
    · intro h
      cases he : applyEdit content e with
      | none =>
        have ho : e.oldText = o := by simpa [applyEditsLoop, he] using h
        exact ⟨0, by simp, content, by simp [applyEditsLoop],
          by simpa using he, by simpa using ho.symm⟩
      | some c =>
        have h' : applyEditsLoop c rest = .error o := by
          simpa [applyEditsLoop, he] using h
        obtain ⟨i, hi, c', h1, h2, h3⟩ := (ih c o).mp h'
        refine ⟨i + 1, by simpa using Nat.succ_lt_succ hi, c', ?_,
          by simpa using h2, by simpa using h3⟩
        simp [List.take_succ_cons, applyEditsLoop, he, h1]
    · rintro ⟨i, hi, c, h1, h2, h3⟩
      cases i with
      | zero =>
        have hc : content = c := by simpa [applyEditsLoop] using h1
        subst hc
        have he : applyEdit content e = none := by simpa using h2
        have ho : o = e.oldText := by simpa using h3
        simp [applyEditsLoop, he, ho]
      | succ i =>
        cases he : applyEdit content e with
        | none =>
          rw [List.take_succ_cons] at h1
          simp [applyEditsLoop, he] at h1
        | some c1 =>
          have h1' : applyEditsLoop c1 (rest.take i) = .ok c := by
            rw [List.take_succ_cons] at h1
            simpa [applyEditsLoop, he] using h1
          have hr := (ih c1 o).mpr ⟨i, by simpa using Nat.lt_of_succ_lt_succ hi, c,
            h1', by simpa using h2, by simpa using h3⟩
          simpa [applyEditsLoop, he] using hr

/-- Claim C7.  An edit fails (throwing with its raw `oldText`) exactly
when it matches neither as an exact substring nor as a fuzzy line-block
against the then-current content; the loop fails exactly when some edit
fails against the content produced by the edits before it, carrying that
edit's `oldText`; and when the first edit of the list fails, the on-disk
content is left unchanged. -/
theorem applyEdits_editNotFound_iff :
    (∀ (cur : Content) (e : Edit),
        applyEdit cur e = none ↔
          occurs (normalizeLineEndings e.oldText) cur = false ∧
          fuzzyFindIdx (splitNl (normalizeLineEndings e.oldText)) (splitNl cur) = none) ∧
    (∀ (content o : Content) (edits : List Edit),
        applyEditsLoop content edits = .error o ↔
        ∃ (i : Nat) (h : i < edits.length) (c : Content),
          applyEditsLoop content (edits.take i) = .ok c ∧
          applyEdit c (edits.get ⟨i, h⟩) = none ∧
          o = (edits.get ⟨i, h⟩).oldText) ∧
    (∀ (diffFn : Content → Content → Content) (fileContent : Content) (e : Edit)
        (rest : List Edit) (dryRun : Bool),
        applyEdit (normalizeLineEndings fileContent) e = none →
        (applyFileEdits diffFn fileContent (e :: rest) dryRun).1 = fileContent) := by
  refine ⟨?_, fun content o edits => applyEditsLoop_error_iff edits content o, ?_⟩
  · intro cur e
    constructor
    · intro h
      cases hocc : occurs (normalizeLineEndings e.oldText) cur with
      | true => simp [applyEdit, hocc] at h
      | false =>
        refine ⟨rfl, ?_⟩
        have hf : fuzzyApply cur (normalizeLineEndings e.oldText)
            (normalizeLineEndings e.newText) = none := by
          simpa [applyEdit, hocc] using h
        simp only [fuzzyApply] at hf
        cases hfind : fuzzyFindIdx (splitNl (normalizeLineEndings e.oldText))
            (splitNl cur) with
        | none => rfl
        | some i => rw [hfind] at hf; simp at hf
    · rintro ⟨h1, h2⟩
      simp [applyEdit, h1, fuzzyApply, h2]
  · intro diffFn fileContent e rest dryRun h
    simp [applyFileEdits, applyEditsLoop, h]

/-- Witness for claim C7: a first edit whose old text `"zz"` matches
`"ab"` neither exactly nor fuzzily leaves the content unchanged. -/
theorem applyEdits_editNotFound_iff_witness :
    (applyFileEdits (fun a _ => a) (strC "ab")
      (⟨strC "zz", strC "y"⟩ :: []) false).1 = strC "ab" :=
  applyEdits_editNotFound_iff.2.2 (fun a _ => a) (strC "ab")
    ⟨strC "zz", strC "y"⟩ [] false (by decide)

/-- Claim C8.  With `dryRun = true` the stored content is returned
unchanged whatever the edits do, the returned value (diff or error) is
identical to the non-dry run's, and when all edits match, the dry run
returns the formatted rendered diff while only the non-dry run persists
the final content. -/
theorem applyFileEdits_dryRun_no_write :
    (∀ (diffFn : Content → Content → Content) (fileContent : Content)
        (edits : List Edit),
        (applyFileEdits diffFn fileContent edits true).1 = fileContent) ∧
    (∀ (diffFn : Content → Content → Content) (fileContent : Content)
        (edits : List Edit),
        (applyFileEdits diffFn fileContent edits true).2 =
        (applyFileEdits diffFn fileContent edits false).2) ∧
    (∀ (diffFn : Content → Content → Content) (fileContent m : Content)
        (edits : List Edit),
        applyEditsLoop (normalizeLineEndings fileContent) edits = .ok m →
        (applyFileEdits diffFn fileContent edits false).1 = m ∧
        (applyFileEdits diffFn fileContent edits true).2 =
          .ok (formatDiff (diffFn (normalizeLineEndings fileContent) m))) := by
  refine ⟨?_, ?_, ?_⟩
  · intro diffFn fileContent edits
    simp only [applyFileEdits]
    cases h : applyEditsLoop (normalizeLineEndings fileContent) edits <;> simp
  · intro diffFn fileContent edits
    simp only [applyFileEdits]
    cases h : applyEditsLoop (normalizeLineEndings fileContent) edits <;> simp
  · intro diffFn fileContent m edits h
    simp [applyFileEdits, h]

/-- Witness for claim C8: one matching edit on `"ab"`; the dry run keeps
`"ab"` on disk and returns the formatted diff, the real run persists
`"xb"`. -/
theorem applyFileEdits_dryRun_no_write_witness :
    (applyFileEdits (fun a b => a ++ b) (strC "ab")
        (⟨strC "a", strC "x"⟩ :: []) true).1 = strC "ab" ∧
    (applyFileEdits (fun a b => a ++ b) (strC "ab")
        (⟨strC "a", strC "x"⟩ :: []) false).1 = strC "xb" ∧
    (applyFileEdits (fun a b => a ++ b) (strC "ab")
        (⟨strC "a", strC "x"⟩ :: []) true).2 =
      .ok (formatDiff ((fun a b => a ++ b)
        (normalizeLineEndings (strC "ab")) (strC "xb"))) :=
  ⟨applyFileEdits_dryRun_no_write.1 (fun a b => a ++ b) (strC "ab") _,
   (applyFileEdits_dryRun_no_write.2.2 (fun a b => a ++ b) (strC "ab") (strC "xb")
      (⟨strC "a", strC "x"⟩ :: []) (by rfl)).1,
   (applyFileEdits_dryRun_no_write.2.2 (fun a b => a ++ b) (strC "ab") (strC "xb")
      (⟨strC "a", strC "x"⟩ :: []) (by rfl)).2⟩

/-- Claim C10.  The edit loop works on an in-memory buffer and the write
happens only after every edit matched, so every `EditNotFound` failure —
at any position in the edit list, not only the first — leaves the on-disk
content byte-for-byte unchanged. -/
theorem applyFileEdits_error_no_write :
    ∀ (diffFn : Content → Content → Content) (fileContent : Content)
      (edits : List Edit) (dryRun : Bool) (o : Content),
      (applyFileEdits diffFn fileContent edits dryRun).2 = .error o →
      (applyFileEdits diffFn fileContent edits dryRun).1 = fileContent := by
  intro diffFn fileContent edits dryRun o h
  simp only [applyFileEdits] at h ⊢
  cases hl : applyEditsLoop (normalizeLineEndings fileContent) edits with
  | error e => simp [hl]
  | ok m => rw [hl] at h; simp at h

/-- Witness for claim C10: the second edit fails after the first edit
succeeded in memory, and the on-disk content `"ab"` is untouched even
with `dryRun = false`. -/
theorem applyFileEdits_error_no_write_witness :
    (applyFileEdits (fun a _ => a) (strC "ab")
        (⟨strC "a", strC "x"⟩ :: ⟨strC "zz", strC "y"⟩ :: []) false).2 =
      .error (strC "zz") ∧
    (applyFileEdits (fun a _ => a) (strC "ab")
        (⟨strC "a", strC "x"⟩ :: ⟨strC "zz", strC "y"⟩ :: []) false).1 = strC "ab" :=
  ⟨by rfl,
   applyFileEdits_error_no_write (fun a _ => a) (strC "ab")
     (⟨strC "a", strC "x"⟩ :: ⟨strC "zz", strC "y"⟩ :: []) false (strC "zz") (by rfl)⟩

/-! ## Claims about the search engine -/

theorem splitOnChar_no_sep (sep : Char) :
    ∀ l : Content, (∀ c ∈ l, c ≠ sep) → splitOnChar sep l = [l] := by
  intro l
  induction l with
  | nil => intro _; rfl
  | cons c rest ih =>
    intro h
    have hc : ¬(c = sep) := h c (List.mem_cons_self c rest)
    have hr := ih fun c' hc' => h c' (List.mem_cons_of_mem c hc')
    rw [splitOnChar.eq_2, if_neg hc, hr]

theorem splitOnChar_append_sep (sep : Char) :
    ∀ l r : Content, (∀ c ∈ l, c ≠ sep) →
      splitOnChar sep (l ++ sep :: r) = l :: splitOnChar sep r := by
  intro l
  induction l with
  | nil => intro r _; rw [List.nil_append, splitOnChar.eq_2, if_pos rfl]
  | cons c rest ih =>
    intro r h
    have hc : ¬(c = sep) := h c (List.mem_cons_self c rest)
    have hr := ih r fun c' hc' => h c' (List.mem_cons_of_mem c hc')
    rw [List.cons_append, splitOnChar.eq_2, if_neg hc, hr]

theorem splitSlash_expand (pat : String) (h : ('/' : Char) ∉ pat.data) :
    splitSlash ("**/" ++ pat ++ "/**") = ["**", pat, "**"] := by
  have hdata : ("**/" ++ pat ++ "/**").data =
      ['*', '*'] ++ '/' :: (pat.data ++ '/' :: ['*', '*']) := by
    simp [String.data_append]
  rw [splitSlash, hdata]
  rw [splitOnChar_append_sep '/' ['*', '*'] _ (by decide)]
  rw [splitOnChar_append_sep '/' pat.data ['*', '*'] fun c hc hceq => h (hceq ▸ hc)]
  rw [splitOnChar_no_sep '/' ['*', '*'] (by decide)]
  have hstar2 : String.mk ['*', '*'] = "**" := by decide
  simp only [List.map, hstar2]

theorem glob_two_segs (p : String) (hp : p ≠ "**") :
    ∀ fs : List String, globSegMatch [p, "**"] fs = true ↔
      ∃ fs2 : List String, fs = p :: fs2 ∧ fs2 ≠ [] := by
  intro fs
  cases fs with
  | nil =>
    rw [globSegMatch.eq_2, if_neg hp]
    simp
  | cons f fs2 =>
    rw [globSegMatch.eq_3, if_neg hp]
    have hstar : globSegMatch ["**"] fs2 = !fs2.isEmpty := by
      cases fs2 with
      | nil => rw [globSegMatch.eq_2]; rfl
      | cons a l => rw [globSegMatch.eq_3]; rfl
    rw [hstar]
    simp only [Bool.and_eq_true, beq_iff_eq, Bool.not_eq_true', List.isEmpty_eq_false]
    constructor
    · rintro ⟨h1, h2⟩
      exact ⟨fs2, by rw [h1], h2⟩
    · rintro ⟨fs2', heq, hne⟩
      obtain ⟨h1, h2⟩ := List.cons.injEq .. ▸ heq
      exact ⟨h1.symm, h2 ▸ hne⟩

theorem globSegMatch_middle (p : String) (hp : p ≠ "**") (segs : List String) :
    globSegMatch ["**", p, "**"] segs = true ↔ p ∈ segs.dropLast := by
  have h0 : globSegMatch ["**", p, "**"] segs =
      (List.range segs.length).any fun k => globSegMatch [p, "**"] (segs.drop k) := by
    cases segs with
    | nil => rw [globSegMatch.eq_2]; rfl
    | cons a l => rw [globSegMatch.eq_3]; rfl
  rw [h0]
  rw [List.any_eq_true]
  constructor
  · rintro ⟨k, hk, hinner⟩
    rw [List.mem_range] at hk
    obtain ⟨fs2, hdrop, hne⟩ := (glob_two_segs p hp _).mp hinner
    have h1 : segs.drop k = segs[k] :: segs.drop (k + 1) := List.drop_eq_getElem_cons hk
    rw [h1] at hdrop
    obtain ⟨hg, hfs2⟩ := List.cons.injEq .. ▸ hdrop
    have hlen : k + 1 < segs.length := by
      rcases Nat.lt_or_ge (k + 1) segs.length with hlt | hge
      · exact hlt
      · have hd : segs.drop (k + 1) = [] := List.drop_eq_nil_of_le hge
        rw [hd] at hfs2
        exact absurd hfs2.symm hne
    refine List.mem_iff_getElem.mpr ⟨k, ?_, ?_⟩
    · rw [List.length_dropLast]; omega
    · rw [List.getElem_dropLast]; exact hg
  · intro hmem
    obtain ⟨k, hk, hget⟩ := List.mem_iff_getElem.mp hmem
    have hk' : k + 1 < segs.length := by
      rw [List.length_dropLast] at hk; omega
    refine ⟨k, List.mem_range.mpr (by omega), ?_⟩
    apply (glob_two_segs p hp _).mpr
    refine ⟨segs.drop (k + 1), ?_, ?_⟩
    · rw [List.drop_eq_getElem_cons (by omega)]
      rw [List.getElem_dropLast] at hget
      rw [hget]
    · intro hnil
      have := List.drop_eq_nil_iff.mp hnil
      omega

theorem searchList_results_not_excluded (v : List String → Bool) (rootLen : Nat)
    (pattern : String) (ex : List String) :
    ∀ (cur : List String) (entries : List FSTree) (r : List String),
      r ∈ searchList v rootLen pattern ex cur entries →
      shouldExclude ex (r.drop rootLen) = false := by
  intro cur entries
  have IND := searchList.induct v rootLen pattern ex
  induction cur, entries using IND with
  | case1 x => exact fun r hr => absurd hr (by rw [searchList.eq_1]; simp)
  | case2 cur t rest fp ihdir ihrest =>
    intro r hr
    have hfp : fp = cur ++ [t.name] := rfl
    clear_value fp
    subst hfp
    cases t with
    | file n =>
      rw [searchList.eq_2] at hr
      rcases List.mem_append.mp hr with h | h
      · split at h
        case isTrue hv =>
          split at h
          case isTrue hex => exact absurd h (by simp)
          case isFalse hex =>
            rw [List.append_nil] at h
            split at h
            case isTrue hn =>
              rw [List.mem_singleton] at h
              rw [h]
              exact Bool.eq_false_iff.mpr hex
            case isFalse hn => exact absurd h (by simp)
        case isFalse hv => exact absurd h (by simp)
      · exact ihrest r h
    | dir n cs =>
      rw [searchList.eq_3] at hr
      rcases List.mem_append.mp hr with h | h
      · split at h
        case isTrue hv =>
          split at h
          case isTrue hex => exact absurd h (by simp)
          case isFalse hex =>
            rcases List.mem_append.mp h with h2 | h2
            · split at h2
              case isTrue hn =>
                rw [List.mem_singleton] at h2
                rw [h2]
                exact Bool.eq_false_iff.mpr hex
              case isFalse hn => exact absurd h2 (by simp)
            · exact ihdir r h2
        case isFalse hv => exact absurd h (by simp)
      · exact ihrest r h

theorem shouldExclude_false_not_mem (ex rel : List String) (pat : String)
    (hmem : pat ∈ ex) (hstar : strContains pat '*' = false)
    (hslash : ('/' : Char) ∉ pat.data)
    (h : shouldExclude ex rel = false) : pat ∉ rel.dropLast := by
  intro hin
  rw [shouldExclude] at h
  have hq : ¬(miniMatch rel (expandExcludePattern pat) = true) :=
    (List.any_eq_false.mp h) pat hmem
  have hexp : expandExcludePattern pat = "**/" ++ pat ++ "/**" := by
    simp [expandExcludePattern, hstar]
  have hpne : pat ≠ "**" := by
    intro hcon
    rw [hcon] at hstar
    exact absurd hstar (by decide)
  rw [hexp, miniMatch, splitSlash_expand pat hslash] at hq
  exact hq ((globSegMatch_middle pat hpne rel).mpr hin)

/-- Claim C9.  An exclude pattern with no glob wildcard is expanded to a
globstar-wrapped directory-name filter and matched against the entry's
path relative to the search root; consequently no strict descendant of a
directory whose name equals such a pattern is ever returned, so the
exclusion is subtree-wide.  On the spec's example tree the search with
root segments `["/root"]`, pattern `foo` and exclude `build` returns
exactly the one path under `src`. -/
theorem searchFiles_exclude_subtree :
    (∀ pat : String, strContains pat '*' = false →
        expandExcludePattern pat = "**/" ++ pat ++ "/**") ∧
    (∀ (validate : List String → Bool) (rootPath : List String) (pattern : String)
        (excludePatterns : List String) (entries : List FSTree) (pat : String)
        (r : List String),
        pat ∈ excludePatterns → strContains pat '*' = false →
        ('/' : Char) ∉ pat.data →
        r ∈ searchFiles validate rootPath pattern excludePatterns entries →
        pat ∉ (r.drop rootPath.length).dropLast) ∧
    searchFiles (fun _ => true) ["/root"] "foo" ["build"]
        (.dir "build" [.file "foo.txt"] :: .dir "src" [.file "foo.txt"] :: []) =
      [["/root", "src", "foo.txt"]] := by
  refine ⟨?_, ?_, ?_⟩
  · intro pat h
    simp [expandExcludePattern, h]
  · intro validate rootPath pattern excludePatterns entries pat r hmem hstar hslash hr
    have hexcl := searchList_results_not_excluded validate rootPath.length pattern
      excludePatterns rootPath entries r hr
    exact shouldExclude_false_not_mem excludePatterns (r.drop rootPath.length) pat
      hmem hstar hslash hexcl
  · simp only [searchFiles, searchList, FSTree.name]
    decide

/-- Witness for claim C9: in the example tree, the returned path
`/root/src/foo.txt` has no non-final relative segment equal to the
excluded name `build`. -/
theorem searchFiles_exclude_subtree_witness :
    "build" ∉ ((["/root", "src", "foo.txt"] : List String).drop
      (["/root"] : List String).length).dropLast :=
  searchFiles_exclude_subtree.2.1 (fun _ => true) ["/root"] "foo" ["build"]
    (.dir "build" [.file "foo.txt"] :: .dir "src" [.file "foo.txt"] :: [])
    "build" ["/root", "src", "foo.txt"]
    (by decide) (by decide) (by decide)
    (by rw [searchFiles_exclude_subtree.2.2]; decide)

end MCPRepo
